import Mathlib

set_option maxHeartbeats 1000000

/-!
Verification of the AIP policy engine (`src/proxy/pkg/policy/engine.go`).

The Go source is shallowly embedded below:

* Go maps (`allowedSet map[string]struct{}`, `toolRules map[string]*ToolRule`,
  `args map[string]any`, `AllowArgs map[string]string`) are modelled as
  association lists with `lookupA` (lookup) and `insertA` (overwriting insert);
  sets of strings are lists with `insertSet`.
* `strings.ToLower` / `strings.TrimSpace` are modelled character-wise by
  `lowerChar` (ASCII case folding, agreeing with Go on the ASCII range used by
  every claim) and `goTrimSpace` (trimming Go's `unicode.IsSpace` characters).
* The `regexp` standard-library boundary (`regexp.Compile`, `MatchString`) is
  abstracted as a `RegexLib` record: a type of compiled patterns, a fallible
  compiler, and a matcher.  Engine definitions and theorems are parametric in
  the backend; concrete evaluations instantiate it with `testLib`, whose
  compiler rejects the pattern "(" exactly as Go's `regexp.Compile` does.
* `yaml.Unmarshal` is modelled by letting `Engine.Load` consume an
  `Option AgentPolicy`: `none` is a structural parse failure, `some p` a
  successfully parsed document.
* Dynamic argument values (`any`) are the inductive `GoValue`; the `float64`
  and `default` branches of `argToString` carry their `fmt.Sprintf` rendering
  abstractly, since IEEE-754 shortest-round-trip formatting is not modelled.

`Engine.Load` is translated statement by statement, in particular preserving
the source's in-place mutation order: the allowed set and the rule map are
overwritten *before* the regex patterns of the incoming document are compiled.
-/

/-- Code points accepted by Go's `unicode.IsSpace` (the White_Space property),
used by `strings.TrimSpace`. -/
def goSpaceCodes : List Nat :=
  [9, 10, 11, 12, 13, 32, 133, 160, 5760, 8192, 8193, 8194, 8195, 8196, 8197,
   8198, 8199, 8200, 8201, 8202, 8232, 8233, 8239, 8287, 12288]

/-- Character-level model of Go's `unicode.IsSpace`. -/
def goIsSpace (c : Char) : Bool := decide (c.toNat ∈ goSpaceCodes)

/-- Character-level model of Go's case folding in `strings.ToLower` on the
ASCII range: `A`..`Z` map to `a`..`z`, every other character is unchanged
(non-ASCII letters are not used by any tool name in the claims). -/
def lowerChar (c : Char) : Char :=
  if 65 ≤ c.toNat ∧ c.toNat ≤ 90 then Char.ofNat (c.toNat + 32) else c

/-- Dropping leading and trailing white space from a character list;
the list-level core of `strings.TrimSpace`. -/
def trimList (l : List Char) : List Char :=
  ((l.dropWhile goIsSpace).reverse.dropWhile goIsSpace).reverse

/-- Model of Go's `strings.TrimSpace`. -/
def goTrimSpace (s : String) : String := String.mk (trimList s.data)

/-- Model of Go's `strings.ToLower` (ASCII fragment, see `lowerChar`). -/
def goToLower (s : String) : String := String.mk (s.data.map lowerChar)

/-- The tool-name normalization `strings.ToLower(strings.TrimSpace(x))`
performed by `Engine.Load` (engine.go:179, 187) and by `Engine.IsAllowed`
(engine.go:255). -/
def normalizeTool (s : String) : String := goToLower (goTrimSpace s)

/-- Lookup in an association list, modelling Go map indexing `m[k]`. -/
def lookupA {α : Type} : List (String × α) → String → Option α
  | [], _ => none
  | (k', v) :: rest, k => if k' = k then some v else lookupA rest k

/-- Overwriting insert into an association list, modelling the Go map
assignment `m[k] = v`. -/
def insertA {α : Type} : List (String × α) → String → α → List (String × α)
  | [], k, v => [(k, v)]
  | (k', v') :: rest, k, v =>
    if k' = k then (k, v) :: rest else (k', v') :: insertA rest k v

/-- Insert into a set of strings, modelling `set[k] = struct{}{}` on a
`map[string]struct{}`. -/
def insertSet (s : List String) (x : String) : List String :=
  if x ∈ s then s else s ++ [x]

/-- `PolicyMetadata` (engine.go:62-71): identifying information, display only. -/
structure PolicyMetadata where
  name : String
  version : String
  owner : String
deriving DecidableEq

/-- `ToolRule` as declared in the document (engine.go:103-115): a tool name and
the `allow_args` map from argument name to regex pattern string.  The
`compiledArgs` field of the Go struct is engine-internal state populated during
`Load` and lives in `CompiledRule` below. -/
structure ToolRule where
  tool : String
  allow_args : List (String × String)
deriving DecidableEq

/-- `PolicySpec` (engine.go:74-90): allow-list, argument rules, and the
reserved (unenforced) deny-list. -/
structure PolicySpec where
  allowed_tools : List String
  tool_rules : List ToolRule
  denied_tools : List String
deriving DecidableEq

/-- `AgentPolicy` (engine.go:46-59): the parsed agent.yaml manifest. -/
structure AgentPolicy where
  apiVersion : String
  kind : String
  metadata : PolicyMetadata
  spec : PolicySpec
deriving DecidableEq

/-- The `regexp` standard-library boundary: a type of compiled patterns, the
fallible `regexp.Compile`, and `(*Regexp).MatchString`.  The engine is
parametric in this backend; Go's real backend rejects exactly the malformed
patterns (for instance "(") and matches unanchored. -/
structure RegexLib where
  Regex : Type
  compile : String → Option Regex
  matchString : Regex → String → Bool

/-- A `*ToolRule` as stored in `Engine.toolRules` after `Load` populated
`compiledArgs` (engine.go:112-115, 190-197). -/
structure CompiledRule (R : Type) where
  tool : String
  allow_args : List (String × String)
  compiledArgs : List (String × R)

/-- `Engine` (engine.go:128-139): the loaded document, the normalized
allowed-tool set, and the compiled-rule map.  `allowedSet` is an
`Option` so that the `nil`-map fail-closed check at engine.go:249 is
representable (`NewEngine` makes it non-`nil` but empty). -/
structure Engine (R : Type) where
  policy : Option AgentPolicy
  allowedSet : Option (List String)
  toolRules : List (String × CompiledRule R)

/-- `NewEngine` (engine.go:144-149): empty non-nil maps, no policy. -/
def NewEngine (R : Type) : Engine R :=
  { policy := none, allowedSet := some [], toolRules := [] }

/-- Possible `Load` failures (engine.go:164, 169, 172, 194). -/
inductive LoadError where
  | malformedDocument
  | missingAPIVersion
  | unexpectedKind (kind : String)
  | invalidRegex (tool arg : String)
deriving DecidableEq

/-- The inner compilation loop of `Load` (engine.go:190-197): compile every
`allow_args` pattern of one rule, failing on the first pattern the backend
rejects with an error naming the (unnormalized) tool and the argument. -/
def compileArgs (lib : RegexLib) (tool : String) :
    List (String × String) → Except LoadError (List (String × lib.Regex))
  | [] => .ok []
  | (argName, pat) :: rest =>
    match lib.compile pat with
    | none => .error (.invalidRegex tool argName)
    | some re =>
      match compileArgs lib tool rest with
      | .error err => .error err
      | .ok l => .ok ((argName, re) :: l)

/-- The rule loop of `Load` (engine.go:185-203), threading the engine's
`toolRules` and `allowedSet` maps exactly as the Go loop mutates them: each
successfully compiled rule is stored under its normalized name and its name is
unioned into the allowed set; a compilation failure aborts, keeping the
partially rebuilt maps. -/
def loadRulesAux (lib : RegexLib) :
    List ToolRule → List (String × CompiledRule lib.Regex) → List String →
    List (String × CompiledRule lib.Regex) × List String × Option LoadError
  | [], tr, aset => (tr, aset, none)
  | rule :: rest, tr, aset =>
    match compileArgs lib rule.tool rule.allow_args with
    | .error err => (tr, aset, some err)
    | .ok ca =>
      loadRulesAux lib rest
        (insertA tr (normalizeTool rule.tool) ⟨rule.tool, rule.allow_args, ca⟩)
        (insertSet aset (normalizeTool rule.tool))

/-- The allowed-set rebuild of `Load` (engine.go:177-181): a fresh set holding
the normalized names of `spec.allowed_tools`. -/
def buildAllowedSet (tools : List String) : List String :=
  tools.foldl (fun acc t => insertSet acc (normalizeTool t)) []

/-- The body of `Load` after field validation (engine.go:175-206).  Mirrors
the source's mutation order: `e.allowedSet` is replaced by the incoming
document's allow-list and `e.toolRules` by a fresh map *before* rule
compilation, so on a compilation error the partially rebuilt maps remain in
the returned engine while `e.policy` keeps its previous value. -/
def loadCompiled (lib : RegexLib) (e : Engine lib.Regex) (p : AgentPolicy) :
    Engine lib.Regex × Option LoadError :=
  match loadRulesAux lib p.spec.tool_rules [] (buildAllowedSet p.spec.allowed_tools) with
  | (tr, aset, some err) =>
    ({ e with allowedSet := some aset, toolRules := tr }, some err)
  | (tr, aset, none) =>
    ({ policy := some p, allowedSet := some aset, toolRules := tr }, none)

/-- `Engine.Load` (engine.go:161-207).  The `Option AgentPolicy` input models
the outcome of `yaml.Unmarshal`: `none` is a structural parse failure.  Field
validation happens before any engine state is touched. -/
def Engine.Load (lib : RegexLib) (e : Engine lib.Regex) (parsed : Option AgentPolicy) :
    Engine lib.Regex × Option LoadError :=
  match parsed with
  | none => (e, some .malformedDocument)
  | some p =>
    if p.apiVersion = "" then (e, some .missingAPIVersion)
    else if p.kind ≠ "AgentPolicy" then (e, some (.unexpectedKind p.kind))
    else loadCompiled lib e p

/-- `ValidationResult` (engine.go:219-223); the zero value of a Go string is
`""`, so tool-level denials carry empty `FailedArg`/`FailedRule`. -/
structure ValidationResult where
  Allowed : Bool
  FailedArg : String
  FailedRule : String
deriving DecidableEq

/-- A dynamic argument value (`any`, engine.go:248): the scalar kinds the
`argToString` switch distinguishes.  The `float64` and `other` constructors
carry their `fmt.Sprintf` rendering abstractly, because IEEE-754 binary64
formatting is outside this embedding. -/
inductive GoValue where
  | str (s : String)
  | float64 (rendered : String)
  | int (n : Int)
  | boolean (b : Bool)
  | other (rendered : String)
deriving DecidableEq

/-- `argToString` (engine.go:301-314): canonical text form of an argument
value.  Strings pass through, ints render in decimal (`%d`), booleans render
as the literals `true`/`false` (`%t`); the `float64` (`%v`) and default (`%v`)
branches return the rendering carried by the value. -/
def argToString : GoValue → String
  | .str s => s
  | .float64 r => r
  | .int n => toString n
  | .boolean b => if b then "true" else "false"
  | .other r => r

/-- The argument-validation loop of `IsAllowed` (engine.go:270-293): walk the
compiled patterns; a missing or non-matching constrained argument denies
immediately, reporting the argument name and the declared pattern string
`rule.AllowArgs[argName]` (whose Go zero value on a missing key is `""`). -/
def checkArgs (lib : RegexLib) (rule : CompiledRule lib.Regex) :
    List (String × lib.Regex) → List (String × GoValue) → ValidationResult
  | [], _ => ⟨true, "", ""⟩
  | (argName, re) :: rest, args =>
    match lookupA args argName with
    | none => ⟨false, argName, (lookupA rule.allow_args argName).getD ""⟩
    | some v =>
      if lib.matchString re (argToString v) then checkArgs lib rule rest args
      else ⟨false, argName, (lookupA rule.allow_args argName).getD ""⟩

/-- `Engine.IsAllowed` (engine.go:248-297): nil-set fail-closed check, tool
normalization, allow-list membership, then argument validation when the tool
has a rule with at least one compiled pattern. -/
def Engine.IsAllowed (lib : RegexLib) (e : Engine lib.Regex)
    (toolName : String) (args : List (String × GoValue)) : ValidationResult :=
  match e.allowedSet with
  | none => ⟨false, "", ""⟩
  | some aset =>
    if normalizeTool toolName ∈ aset then
      match lookupA e.toolRules (normalizeTool toolName) with
      | none => ⟨true, "", ""⟩
      | some rule =>
        if rule.compiledArgs.length = 0 then ⟨true, "", ""⟩
        else checkArgs lib rule rule.compiledArgs args
    else ⟨false, "", ""⟩

/-- `GetPolicyName` (engine.go:317-322). -/
def Engine.GetPolicyName {R : Type} (e : Engine R) : String :=
  match e.policy with
  | none => "<no policy>"
  | some p => p.metadata.name

/-- `GetAllowedTools` (engine.go:325-332). -/
def Engine.GetAllowedTools {R : Type} (e : Engine R) : Option (List String) :=
  match e.policy with
  | none => none
  | some p => some p.spec.allowed_tools

/-- Concrete regex backend for evaluations: a pattern compiles unless it is
the malformed pattern "(" (which Go's `regexp.Compile` likewise rejects with
`missing closing )`), and a compiled pattern matches exactly its own text. -/
def testLib : RegexLib where
  Regex := String
  compile p := if p = "(" then none else some p
  matchString p s := p == s

/-- A valid document allowing only `safe_tool`, with no argument rules. -/
def goodDoc : AgentPolicy :=
  { apiVersion := "aip.io/v1alpha1", kind := "AgentPolicy"
    metadata := { name := "good", version := "", owner := "" }
    spec := { allowed_tools := ["safe_tool"], tool_rules := [], denied_tools := [] } }

/-- A valid document allowing `safe_tool` unconditionally and constraining
`fetch_url`'s `url` argument by the (compilable) pattern "ok". -/
def ruleDoc : AgentPolicy :=
  { apiVersion := "aip.io/v1alpha1", kind := "AgentPolicy"
    metadata := { name := "rules", version := "", owner := "" }
    spec := { allowed_tools := ["safe_tool"]
              tool_rules := [{ tool := "fetch_url", allow_args := [("url", "ok")] }]
              denied_tools := [] } }

/-- A document whose fields validate but whose single argument pattern "(" does
not compile, while its allow-list names `evil_tool`. -/
def badDoc : AgentPolicy :=
  { apiVersion := "aip.io/v1alpha1", kind := "AgentPolicy"
    metadata := { name := "bad", version := "", owner := "" }
    spec := { allowed_tools := ["evil_tool"]
              tool_rules := [{ tool := "ruled_tool", allow_args := [("x", "(")] }]
              denied_tools := [] } }

/-- The engine obtained by loading `ruleDoc` into a fresh engine with the
concrete backend; used by several witnesses. -/
def eRule : Engine testLib.Regex :=
  (Engine.Load testLib (NewEngine testLib.Regex) (some ruleDoc)).1

/-- A stored rule is well compiled when its `compiledArgs` correspond pairwise
to its declared `allow_args`: same argument name, and the compiled matcher is
the backend's compilation of the declared pattern. -/
def WellCompiled (lib : RegexLib) (r : CompiledRule lib.Regex) : Prop :=
  List.Forall₂ (fun (ap : String × String) (ar : String × lib.Regex) =>
    ar.1 = ap.1 ∧ lib.compile ap.2 = some ar.2) r.allow_args r.compiledArgs

/-- A valid code point below the surrogate range survives `Char.ofNat`. -/
theorem char_ofNat_toNat (n : Nat) (h : n < 55296) : (Char.ofNat n).toNat = n := by
  have hv : n.isValidChar := Or.inl h
  simp [Char.ofNat, hv]
  rfl

/-- Case folding never turns a character into white space or back. -/
theorem goIsSpace_lowerChar (c : Char) : goIsSpace (lowerChar c) = goIsSpace c := by
  unfold lowerChar
  split
  · rename_i h
    have ht : (Char.ofNat (c.toNat + 32)).toNat = c.toNat + 32 :=
      char_ofNat_toNat _ (by omega)
    have h1 : ¬ (c.toNat + 32 ∈ goSpaceCodes) := by simp [goSpaceCodes]; omega
    have h2 : ¬ (c.toNat ∈ goSpaceCodes) := by simp [goSpaceCodes]; omega
    simp [goIsSpace, ht, h1, h2]
  · rfl

/-- Case folding one character is idempotent. -/
theorem lowerChar_idem (c : Char) : lowerChar (lowerChar c) = lowerChar c := by
  by_cases h : 65 ≤ c.toNat ∧ c.toNat ≤ 90
  · have h1 : lowerChar c = Char.ofNat (c.toNat + 32) := by simp [lowerChar, h]
    have ht : (Char.ofNat (c.toNat + 32)).toNat = c.toNat + 32 :=
      char_ofNat_toNat _ (by omega)
    rw [h1]
    have h2 : ¬ (65 ≤ (Char.ofNat (c.toNat + 32)).toNat ∧
        (Char.ofNat (c.toNat + 32)).toNat ≤ 90) := by rw [ht]; omega
    simp [lowerChar, h2]
  · have h1 : lowerChar c = c := by simp [lowerChar, h]
    rw [h1, h1]

/-- `dropWhile goIsSpace` commutes with character-wise case folding. -/
theorem dropWhile_map_lower (l : List Char) :
    (l.map lowerChar).dropWhile goIsSpace = (l.dropWhile goIsSpace).map lowerChar := by
  induction l with
  | nil => rfl
  | cons a t ih =>
    by_cases h : goIsSpace a = true
    · simp [List.dropWhile_cons, goIsSpace_lowerChar, h, ih]
    · simp [List.dropWhile_cons, goIsSpace_lowerChar, h]

/-- `dropWhile` is idempotent. -/
theorem dropWhile_dropWhile {α : Type} (p : α → Bool) (l : List α) :
    List.dropWhile p (List.dropWhile p l) = List.dropWhile p l := by
  induction l with
  | nil => rfl
  | cons a t ih =>
    by_cases h : p a = true
    · simp [List.dropWhile_cons, h, ih]
    · simp [List.dropWhile_cons, h]

/-- The head surviving `dropWhile p` fails `p`. -/
theorem head?_dropWhile_false {α : Type} (p : α → Bool) (l : List α) (a : α)
    (h : (l.dropWhile p).head? = some a) : p a = false := by
  induction l with
  | nil => simp [List.dropWhile] at h
  | cons b t ih =>
    by_cases hb : p b = true
    · rw [List.dropWhile_cons, if_pos hb] at h
      exact ih h
    · rw [List.dropWhile_cons, if_neg hb] at h
      simp only [List.head?_cons, Option.some.injEq] at h
      subst h
      simpa using hb

/-- `dropWhile p` keeps a list whose head already fails `p`. -/
theorem dropWhile_eq_self_of_head? {α : Type} (p : α → Bool) (l : List α)
    (h : ∀ a, l.head? = some a → p a = false) : l.dropWhile p = l := by
  cases l with
  | nil => rfl
  | cons a t =>
    have := h a rfl
    rw [List.dropWhile_cons, if_neg (by simp [this])]

/-- `dropWhile` does not change the last element of a list it leaves nonempty. -/
theorem getLast?_dropWhile {α : Type} (p : α → Bool) (l : List α)
    (h : l.dropWhile p ≠ []) : (l.dropWhile p).getLast? = l.getLast? := by
  induction l with
  | nil => simp [List.dropWhile] at h
  | cons a t ih =>
    by_cases ha : p a = true
    · rw [List.dropWhile_cons, if_pos ha] at h ⊢
      rw [ih h]
      cases t with
      | nil => simp [List.dropWhile] at h
      | cons b t' => rw [List.getLast?_cons_cons]
    · rw [List.dropWhile_cons, if_neg ha]

/-- Trimming commutes with character-wise case folding. -/
theorem trimList_map_lower (l : List Char) :
    trimList (l.map lowerChar) = (trimList l).map lowerChar := by
  unfold trimList
  rw [dropWhile_map_lower, ← List.map_reverse, dropWhile_map_lower, ← List.map_reverse]

/-- A trimmed list has no leading white space left. -/
theorem dropWhile_trimList (l : List Char) :
    (trimList l).dropWhile goIsSpace = trimList l := by
  apply dropWhile_eq_self_of_head?
  intro a ha
  unfold trimList at ha
  rw [List.head?_reverse] at ha
  have hne : (l.dropWhile goIsSpace).reverse.dropWhile goIsSpace ≠ [] := by
    intro h0
    rw [h0] at ha
    simp at ha
  rw [getLast?_dropWhile _ _ hne, List.getLast?_reverse] at ha
  exact head?_dropWhile_false _ _ _ ha

/-- A trimmed list has no trailing white space left. -/
theorem reverse_trimList_dropWhile (l : List Char) :
    (trimList l).reverse.dropWhile goIsSpace = (trimList l).reverse := by
  unfold trimList
  rw [List.reverse_reverse]
  exact dropWhile_dropWhile _ _

/-- Trimming is idempotent. -/
theorem trimList_idem (l : List Char) : trimList (trimList l) = trimList l := by
  show (((trimList l).dropWhile goIsSpace).reverse.dropWhile goIsSpace).reverse = trimList l
  rw [dropWhile_trimList, reverse_trimList_dropWhile, List.reverse_reverse]

/-- Character-wise case folding of a list is idempotent. -/
theorem map_lowerChar_idem (l : List Char) :
    (l.map lowerChar).map lowerChar = l.map lowerChar := by
  induction l with
  | nil => rfl
  | cons a t ih => simp [lowerChar_idem, ih]

/-- Tool-name normalization is idempotent: trimming and lower-casing an
already normalized name changes nothing. -/
theorem normalizeTool_idem (s : String) :
    normalizeTool (normalizeTool s) = normalizeTool s := by
  show String.mk ((trimList ((trimList s.data).map lowerChar)).map lowerChar) =
       String.mk ((trimList s.data).map lowerChar)
  rw [trimList_map_lower, trimList_idem, map_lowerChar_idem]

/-- Looking up after an overwriting insert: the inserted key maps to the new
value, every other key is unaffected. -/
theorem lookupA_insertA {α : Type} (m : List (String × α)) (k : String) (v : α) (k' : String) :
    lookupA (insertA m k v) k' = if k = k' then some v else lookupA m k' := by
  induction m with
  | nil => by_cases h : k = k' <;> simp [insertA, lookupA, h]
  | cons p rest ih =>
    obtain ⟨k0, v0⟩ := p
    by_cases h0 : k0 = k <;> by_cases h1 : k = k' <;>
      simp_all [insertA, lookupA]

/-- Membership after a set insert. -/
theorem mem_insertSet {s : List String} {x y : String} :
    y ∈ insertSet s x ↔ y ∈ s ∨ y = x := by
  unfold insertSet
  split_ifs with h
  · constructor
    · exact fun hy => Or.inl hy
    · rintro (hy | rfl)
      · exact hy
      · exact h
  · simp [List.mem_append]

/-- A successful lookup exhibits a member of the association list. -/
theorem lookupA_mem {α : Type} :
    ∀ (l : List (String × α)) (k : String) (v : α),
      lookupA l k = some v → (k, v) ∈ l := by
  intro l
  induction l with
  | nil => intro k v h; simp [lookupA] at h
  | cons p rest ih =>
    intro k v h
    obtain ⟨k0, v0⟩ := p
    by_cases h0 : k0 = k
    · subst h0
      rw [lookupA, if_pos rfl] at h
      obtain rfl := Option.some.inj h
      exact List.mem_cons_self _ _
    · rw [lookupA, if_neg h0] at h
      exact List.mem_cons_of_mem _ (ih k v h)

/-- A successful `compileArgs` run pairs every declared argument pattern with
the backend's compilation of that pattern, in order. -/
theorem compileArgs_forall₂ (lib : RegexLib) (tool : String) :
    ∀ (l : List (String × String)) (ca : List (String × lib.Regex)),
      compileArgs lib tool l = .ok ca →
      List.Forall₂ (fun (ap : String × String) (ar : String × lib.Regex) =>
        ar.1 = ap.1 ∧ lib.compile ap.2 = some ar.2) l ca := by
  intro l
  induction l with
  | nil =>
    intro ca h
    simp only [compileArgs, Except.ok.injEq] at h
    subst h
    exact List.Forall₂.nil
  | cons p rest ih =>
    intro ca h
    obtain ⟨a, pat⟩ := p
    simp only [compileArgs] at h
    cases hc : lib.compile pat with
    | none => rw [hc] at h; simp at h
    | some re =>
      rw [hc] at h
      cases hr : compileArgs lib tool rest with
      | error err => rw [hr] at h; simp at h
      | ok l' =>
        rw [hr] at h
        simp only [Except.ok.injEq] at h
        subst h
        exact List.Forall₂.cons ⟨rfl, hc⟩ (ih l' hr)

/-- `compileArgs` succeeds exactly when every declared pattern compiles. -/
theorem compileArgs_isOk_iff (lib : RegexLib) (tool : String) :
    ∀ l : List (String × String),
      (∃ ca, compileArgs lib tool l = .ok ca) ↔
        ∀ ap ∈ l, ∃ re, lib.compile ap.2 = some re := by
  intro l
  induction l with
  | nil => simp [compileArgs]
  | cons p rest ih =>
    obtain ⟨a, pat⟩ := p
    constructor
    · rintro ⟨ca, h⟩
      simp only [compileArgs] at h
      cases hc : lib.compile pat with
      | none => rw [hc] at h; simp at h
      | some re =>
        rw [hc] at h
        cases hr : compileArgs lib tool rest with
        | error err => rw [hr] at h; simp at h
        | ok l' =>
          intro ap hap
          rcases List.mem_cons.mp hap with rfl | hmem
          · exact ⟨re, hc⟩
          · exact (ih.mp ⟨l', hr⟩) ap hmem
    · intro hall
      obtain ⟨re, hre⟩ := hall (a, pat) (List.mem_cons_self _ _)
      obtain ⟨l', hl'⟩ := ih.mpr (fun ap hap => hall ap (List.mem_cons_of_mem _ hap))
      exact ⟨(a, re) :: l', by simp [compileArgs, hre, hl']⟩

/-- A failed `compileArgs` run names a genuinely uncompilable declared
pattern, through an `invalidRegex` error carrying the tool and argument. -/
theorem compileArgs_error_spec (lib : RegexLib) (tool : String) :
    ∀ (l : List (String × String)) (err : LoadError),
      compileArgs lib tool l = .error err →
      ∃ a pat, (a, pat) ∈ l ∧ lib.compile pat = none ∧
        err = .invalidRegex tool a := by
  intro l
  induction l with
  | nil => intro err h; simp [compileArgs] at h
  | cons p rest ih =>
    intro err h
    obtain ⟨a, pat⟩ := p
    simp only [compileArgs] at h
    cases hc : lib.compile pat with
    | none =>
      rw [hc] at h
      simp only [Except.error.injEq] at h
      exact ⟨a, pat, List.mem_cons_self _ _, hc, h.symm⟩
    | some re =>
      rw [hc] at h
      cases hr : compileArgs lib tool rest with
      | error err' =>
        rw [hr] at h
        simp only [Except.error.injEq] at h
        subst h
        obtain ⟨a', pat', hmem, hn, he⟩ := ih err' hr
        exact ⟨a', pat', List.mem_cons_of_mem _ hmem, hn, he⟩
      | ok l' => rw [hr] at h; simp at h

/-- The rule loop preserves the invariant that every stored rule key is in the
allowed set, because each insertion into `toolRules` is immediately followed
by the implicit-grant insertion into `allowedSet` (engine.go:199-202). -/
theorem loadRulesAux_mem (lib : RegexLib) :
    ∀ (rules : List ToolRule) (tr : List (String × CompiledRule lib.Regex))
      (aset : List String) (tr' : List (String × CompiledRule lib.Regex))
      (aset' : List String) (err : Option LoadError),
      loadRulesAux lib rules tr aset = (tr', aset', err) →
      (∀ n r, lookupA tr n = some r → n ∈ aset) →
      ∀ n r, lookupA tr' n = some r → n ∈ aset' := by
  intro rules
  induction rules with
  | nil =>
    intro tr aset tr' aset' err h hinv
    simp only [loadRulesAux, Prod.mk.injEq] at h
    obtain ⟨rfl, rfl, -⟩ := h
    exact hinv
  | cons rule rest ih =>
    intro tr aset tr' aset' err h hinv
    simp only [loadRulesAux] at h
    cases hc : compileArgs lib rule.tool rule.allow_args with
    | error e0 =>
      rw [hc] at h
      simp only [Prod.mk.injEq] at h
      obtain ⟨rfl, rfl, -⟩ := h
      exact hinv
    | ok ca =>
      rw [hc] at h
      apply ih _ _ _ _ _ h
      intro n r hn
      rw [lookupA_insertA] at hn
      by_cases hnk : normalizeTool rule.tool = n
      · exact mem_insertSet.mpr (Or.inr hnk.symm)
      · rw [if_neg hnk] at hn
        exact mem_insertSet.mpr (Or.inl (hinv n r hn))

/-- Every rule the loop stores was produced by a successful `compileArgs` run
on a rule of the input list (generic invariant-transfer form). -/
theorem loadRulesAux_stored (lib : RegexLib) (Q : CompiledRule lib.Regex → Prop) :
    ∀ (rules : List ToolRule) (tr : List (String × CompiledRule lib.Regex))
      (aset : List String) (tr' : List (String × CompiledRule lib.Regex))
      (aset' : List String) (err : Option LoadError),
      loadRulesAux lib rules tr aset = (tr', aset', err) →
      (∀ n r, lookupA tr n = some r → Q r) →
      (∀ rule ∈ rules, ∀ ca, compileArgs lib rule.tool rule.allow_args = .ok ca →
        Q ⟨rule.tool, rule.allow_args, ca⟩) →
      ∀ n r, lookupA tr' n = some r → Q r := by
  intro rules
  induction rules with
  | nil =>
    intro tr aset tr' aset' err h hinv _
    simp only [loadRulesAux, Prod.mk.injEq] at h
    obtain ⟨rfl, -, -⟩ := h
    exact hinv
  | cons rule rest ih =>
    intro tr aset tr' aset' err h hinv hQ
    simp only [loadRulesAux] at h
    cases hc : compileArgs lib rule.tool rule.allow_args with
    | error e0 =>
      rw [hc] at h
      simp only [Prod.mk.injEq] at h
      obtain ⟨rfl, -, -⟩ := h
      exact hinv
    | ok ca =>
      rw [hc] at h
      apply ih _ _ _ _ _ h
      · intro n r hn
        rw [lookupA_insertA] at hn
        by_cases hnk : normalizeTool rule.tool = n
        · rw [if_pos hnk] at hn
          obtain rfl := Option.some.inj hn
          exact hQ rule (List.mem_cons_self _ _) ca hc
        · rw [if_neg hnk] at hn
          exact hinv n r hn
      · intro rule' hmem ca' hca'
        exact hQ rule' (List.mem_cons_of_mem _ hmem) ca' hca'

/-- The rule loop finishes without error exactly when every pattern of every
rule compiles. -/
theorem loadRulesAux_none_iff (lib : RegexLib) :
    ∀ (rules : List ToolRule) (tr : List (String × CompiledRule lib.Regex))
      (aset : List String),
      (loadRulesAux lib rules tr aset).2.2 = none ↔
        ∀ rule ∈ rules, ∀ ap ∈ rule.allow_args, ∃ re, lib.compile ap.2 = some re := by
  intro rules
  induction rules with
  | nil => intro tr aset; simp [loadRulesAux]
  | cons rule rest ih =>
    intro tr aset
    simp only [loadRulesAux]
    cases hc : compileArgs lib rule.tool rule.allow_args with
    | error e0 =>
      simp only
      constructor
      · intro h; simp at h
      · intro hall
        obtain ⟨a, pat, hmem, hnone, -⟩ := compileArgs_error_spec lib rule.tool _ _ hc
        obtain ⟨re, hre⟩ := hall rule (List.mem_cons_self _ _) (a, pat) hmem
        rw [hre] at hnone
        simp at hnone
    | ok ca =>
      rw [ih]
      constructor
      · intro hall rule' hmem ap hap
        rcases List.mem_cons.mp hmem with rfl | hmem'
        · exact (compileArgs_isOk_iff lib rule'.tool rule'.allow_args).mp ⟨ca, hc⟩ ap hap
        · exact hall rule' hmem' ap hap
      · intro hall rule' hmem ap hap
        exact hall rule' (List.mem_cons_of_mem _ hmem) ap hap

/-- A rule-loop error is an `invalidRegex` error naming a rule of the input
document and one of its genuinely uncompilable declared patterns. -/
theorem loadRulesAux_error_spec (lib : RegexLib) :
    ∀ (rules : List ToolRule) (tr : List (String × CompiledRule lib.Regex))
      (aset : List String) (tr' : List (String × CompiledRule lib.Regex))
      (aset' : List String) (err : LoadError),
      loadRulesAux lib rules tr aset = (tr', aset', some err) →
      ∃ rule ∈ rules, ∃ a pat, (a, pat) ∈ rule.allow_args ∧
        lib.compile pat = none ∧ err = .invalidRegex rule.tool a := by
  intro rules
  induction rules with
  | nil =>
    intro tr aset tr' aset' err h
    simp [loadRulesAux] at h
  | cons rule rest ih =>
    intro tr aset tr' aset' err h
    simp only [loadRulesAux] at h
    cases hc : compileArgs lib rule.tool rule.allow_args with
    | error e0 =>
      rw [hc] at h
      simp only [Prod.mk.injEq] at h
      obtain ⟨-, -, he⟩ := h
      obtain rfl := Option.some.inj he.symm
      obtain ⟨a, pat, hmem, hnone, hval⟩ := compileArgs_error_spec lib rule.tool _ _ hc
      exact ⟨rule, List.mem_cons_self _ _, a, pat, hmem, hnone, hval⟩
    | ok ca =>
      rw [hc] at h
      obtain ⟨rule', hmem, a, pat, hap, hnone, hval⟩ := ih _ _ _ _ _ h
      exact ⟨rule', List.mem_cons_of_mem _ hmem, a, pat, hap, hnone, hval⟩

/-- Shape of a successful `Engine.Load`: the document parsed, its fields
validated, every rule compiled, and the returned engine holds exactly the
rebuilt maps and the new document. -/
theorem Load_ok_elim (lib : RegexLib) (e : Engine lib.Regex) (parsed : Option AgentPolicy)
    (e' : Engine lib.Regex) (h : Engine.Load lib e parsed = (e', none)) :
    ∃ p tr aset, parsed = some p ∧ p.apiVersion ≠ "" ∧ p.kind = "AgentPolicy" ∧
      loadRulesAux lib p.spec.tool_rules [] (buildAllowedSet p.spec.allowed_tools) =
        (tr, aset, none) ∧
      e' = { policy := some p, allowedSet := some aset, toolRules := tr } := by
  cases parsed with
  | none => simp [Engine.Load, Prod.ext_iff] at h
  | some p =>
    simp only [Engine.Load] at h
    by_cases h1 : p.apiVersion = ""
    · rw [if_pos h1] at h
      simp [Prod.ext_iff] at h
    · rw [if_neg h1] at h
      by_cases h2 : p.kind ≠ "AgentPolicy"
      · rw [if_pos h2] at h
        simp [Prod.ext_iff] at h
      · rw [if_neg h2] at h
        push_neg at h2
        unfold loadCompiled at h
        rcases hlr : loadRulesAux lib p.spec.tool_rules []
            (buildAllowedSet p.spec.allowed_tools) with ⟨tr, aset, err⟩
        rw [hlr] at h
        cases err with
        | some e0 => simp [Prod.ext_iff] at h
        | none =>
          simp only [Prod.ext_iff] at h
          exact ⟨p, tr, aset, rfl, h1, h2, hlr, h.1.symm⟩

/-- A well-compiled rule has the same argument names, in the same order, in
its compiled map as in its declared map. -/
theorem forall₂_keys {lib : RegexLib} :
    ∀ {l : List (String × String)} {ca : List (String × lib.Regex)},
      List.Forall₂ (fun (ap : String × String) (ar : String × lib.Regex) =>
        ar.1 = ap.1 ∧ lib.compile ap.2 = some ar.2) l ca →
      ca.map Prod.fst = l.map Prod.fst := by
  intro l ca h
  induction h with
  | nil => rfl
  | cons hR _ ih => simp [ih, hR.1]

/-- Every declared argument of a well-compiled rule has a compiled
counterpart. -/
theorem forall₂_exists_right {lib : RegexLib} :
    ∀ {l : List (String × String)} {ca : List (String × lib.Regex)},
      List.Forall₂ (fun (ap : String × String) (ar : String × lib.Regex) =>
        ar.1 = ap.1 ∧ lib.compile ap.2 = some ar.2) l ca →
      ∀ ap ∈ l, ∃ ar ∈ ca, ar.1 = ap.1 ∧ lib.compile ap.2 = some ar.2 := by
  intro l ca h
  induction h with
  | nil => intro ap hap; simp at hap
  | cons hR htail ih =>
    intro ap hap
    rcases List.mem_cons.mp hap with rfl | hmem
    · exact ⟨_, List.mem_cons_self _ _, hR⟩
    · obtain ⟨ar, har, hprop⟩ := ih ap hmem
      exact ⟨ar, List.mem_cons_of_mem _ har, hprop⟩

/-- Every compiled argument of a well-compiled rule stems from a declared
pattern. -/
theorem forall₂_exists_left {lib : RegexLib} :
    ∀ {l : List (String × String)} {ca : List (String × lib.Regex)},
      List.Forall₂ (fun (ap : String × String) (ar : String × lib.Regex) =>
        ar.1 = ap.1 ∧ lib.compile ap.2 = some ar.2) l ca →
      ∀ ar ∈ ca, ∃ ap ∈ l, ar.1 = ap.1 ∧ lib.compile ap.2 = some ar.2 := by
  intro l ca h
  induction h with
  | nil => intro ar har; simp at har
  | cons hR htail ih =>
    intro ar har
    rcases List.mem_cons.mp har with rfl | hmem
    · exact ⟨_, List.mem_cons_self _ _, hR⟩
    · obtain ⟨ap, hap, hprop⟩ := ih ar hmem
      exact ⟨ap, List.mem_cons_of_mem _ hap, hprop⟩

/-- With distinct declared argument names, a compiled entry's name looks up
exactly its own declared pattern. -/
theorem wc_lookup {lib : RegexLib} :
    ∀ {l : List (String × String)} {ca : List (String × lib.Regex)},
      List.Forall₂ (fun (ap : String × String) (ar : String × lib.Regex) =>
        ar.1 = ap.1 ∧ lib.compile ap.2 = some ar.2) l ca →
      (l.map Prod.fst).Nodup →
      ∀ a re, (a, re) ∈ ca → ∃ pat, lookupA l a = some pat ∧ lib.compile pat = some re := by
  intro l ca h
  induction h with
  | nil => intro _ a re har; simp at har
  | cons hR htail ih =>
    rename_i ap ar l' ca'
    obtain ⟨pn, pp⟩ := ap
    obtain ⟨cn, cre⟩ := ar
    obtain ⟨hR1, hR2⟩ := hR
    intro hnd a re har
    simp only [List.map_cons, List.nodup_cons] at hnd
    rcases List.mem_cons.mp har with heq | hmem
    · injection heq with h1 h2
      subst h1
      subst h2
      rw [lookupA, if_pos hR1.symm]
      exact ⟨pp, rfl, hR2⟩
    · have hkey : a ∈ List.map Prod.fst l' := by
        rw [← forall₂_keys htail]
        exact List.mem_map.mpr ⟨(a, re), hmem, rfl⟩
      have hne : pn ≠ a := fun hcontra => hnd.1 (hcontra ▸ hkey)
      rw [lookupA, if_neg hne]
      exact ih hnd.2 a re hmem

/-- Every rule stored by a successful `Load` is well compiled. -/
theorem Load_ok_wellCompiled (lib : RegexLib) (e : Engine lib.Regex)
    (parsed : Option AgentPolicy) (e' : Engine lib.Regex)
    (h : Engine.Load lib e parsed = (e', none)) :
    ∀ n r, lookupA e'.toolRules n = some r → WellCompiled lib r := by
  obtain ⟨p, tr, aset, -, -, -, hlr, he'⟩ := Load_ok_elim lib e parsed e' h
  subst he'
  apply loadRulesAux_stored lib (WellCompiled lib) _ _ _ _ _ _ hlr
  · intro n r hn
    simp [lookupA] at hn
  · intro rule _ ca hca
    exact compileArgs_forall₂ lib rule.tool _ _ hca

/-- Every rule key stored by a successful `Load` is in the allowed set. -/
theorem Load_ok_rule_mem (lib : RegexLib) (e : Engine lib.Regex)
    (parsed : Option AgentPolicy) (e' : Engine lib.Regex) (aset : List String)
    (h : Engine.Load lib e parsed = (e', none))
    (haset : e'.allowedSet = some aset) :
    ∀ n r, lookupA e'.toolRules n = some r → n ∈ aset := by
  obtain ⟨p, tr, aset', -, -, -, hlr, he'⟩ := Load_ok_elim lib e parsed e' h
  subst he'
  simp only [Option.some.injEq] at haset
  subst haset
  apply loadRulesAux_mem lib _ _ _ _ _ _ hlr
  intro n r hn
  simp [lookupA] at hn

/-- If every rule of the loaded document has distinct argument names (as a
YAML mapping guarantees), so does every stored rule. -/
theorem Load_ok_nodup (lib : RegexLib) (e : Engine lib.Regex)
    (parsed : Option AgentPolicy) (e' : Engine lib.Regex)
    (h : Engine.Load lib e parsed = (e', none))
    (hnd : ∀ p, parsed = some p → ∀ rule ∈ p.spec.tool_rules,
      (rule.allow_args.map Prod.fst).Nodup) :
    ∀ n r, lookupA e'.toolRules n = some r → (r.allow_args.map Prod.fst).Nodup := by
  obtain ⟨p, tr, aset, hp, -, -, hlr, he'⟩ := Load_ok_elim lib e parsed e' h
  subst he'
  apply loadRulesAux_stored lib (fun r => (r.allow_args.map Prod.fst).Nodup) _ _ _ _ _ _ hlr
  · intro n r hn
    simp [lookupA] at hn
  · intro rule hmem ca _
    exact hnd p hp rule hmem

/-- Exhaustive description of the argument-validation loop: either every
compiled constraint passes and the result is the allow verdict, or the loop
denies, reporting the name of a genuinely failing constrained argument and
the declared pattern that name looks up. -/
theorem checkArgs_cases (lib : RegexLib) (rule : CompiledRule lib.Regex)
    (args : List (String × GoValue)) :
    ∀ l : List (String × lib.Regex),
      (checkArgs lib rule l args = ⟨true, "", ""⟩ ∧
        ∀ q ∈ l, ∃ v, lookupA args q.1 = some v ∧
          lib.matchString q.2 (argToString v) = true) ∨
      (∃ a re, (a, re) ∈ l ∧
        checkArgs lib rule l args = ⟨false, a, (lookupA rule.allow_args a).getD ""⟩ ∧
        (lookupA args a = none ∨
          ∃ v, lookupA args a = some v ∧ lib.matchString re (argToString v) = false)) := by
  intro l
  induction l with
  | nil =>
    left
    exact ⟨rfl, by simp⟩
  | cons q rest ih =>
    obtain ⟨a, re⟩ := q
    cases hl : lookupA args a with
    | none =>
      right
      exact ⟨a, re, List.mem_cons_self _ _, by simp [checkArgs, hl], Or.inl hl⟩
    | some v =>
      cases hm : lib.matchString re (argToString v) with
      | false =>
        right
        exact ⟨a, re, List.mem_cons_self _ _, by simp [checkArgs, hl, hm], Or.inr ⟨v, hl, hm⟩⟩
      | true =>
        rcases ih with ⟨hres, hall⟩ | ⟨a', re', hmem, hres, hfail⟩
        · left
          refine ⟨by simp [checkArgs, hl, hm, hres], ?_⟩
          intro q hq
          rcases List.mem_cons.mp hq with rfl | hq'
          · exact ⟨v, hl, hm⟩
          · exact hall q hq'
        · right
          exact ⟨a', re', List.mem_cons_of_mem _ hmem,
            by simp [checkArgs, hl, hm, hres], hfail⟩

/-- The argument-validation loop reads only the constrained argument names:
two argument maps agreeing there validate identically. -/
theorem checkArgs_congr (lib : RegexLib) (rule : CompiledRule lib.Regex)
    (args1 args2 : List (String × GoValue)) :
    ∀ l : List (String × lib.Regex),
      (∀ a ∈ l.map Prod.fst, lookupA args1 a = lookupA args2 a) →
      checkArgs lib rule l args1 = checkArgs lib rule l args2 := by
  intro l
  induction l with
  | nil => intro _; rfl
  | cons q rest ih =>
    intro hag
    obtain ⟨a, re⟩ := q
    have ha : lookupA args1 a = lookupA args2 a := hag a (by simp)
    simp only [checkArgs]
    rw [← ha]
    cases hl : lookupA args1 a with
    | none => rfl
    | some v =>
      simp only
      rw [ih (fun a' ha' => hag a' (by simp [ha']))]

/-- Unfolding `IsAllowed` when the normalized tool is in the allowed set. -/
theorem IsAllowed_eq_of_mem (lib : RegexLib) (e : Engine lib.Regex) (aset : List String)
    (toolName : String) (args : List (String × GoValue))
    (haset : e.allowedSet = some aset) (hmem : normalizeTool toolName ∈ aset) :
    Engine.IsAllowed lib e toolName args =
      match lookupA e.toolRules (normalizeTool toolName) with
      | none => ⟨true, "", ""⟩
      | some rule =>
        if rule.compiledArgs.length = 0 then ⟨true, "", ""⟩
        else checkArgs lib rule rule.compiledArgs args := by
  simp [Engine.IsAllowed, haset, hmem]

/-- Unfolding `IsAllowed` when the normalized tool is not in the allowed set:
the tool-level denial, with empty argument detail. -/
theorem IsAllowed_eq_of_not_mem (lib : RegexLib) (e : Engine lib.Regex) (aset : List String)
    (toolName : String) (args : List (String × GoValue))
    (haset : e.allowedSet = some aset) (hmem : normalizeTool toolName ∉ aset) :
    Engine.IsAllowed lib e toolName args = ⟨false, "", ""⟩ := by
  simp [Engine.IsAllowed, haset, hmem]

/-- C1: the claim states that a `Load` of a document containing an
uncompilable argument pattern leaves the engine's compiled state (allowed-tool
set and compiled-rule mapping) unchanged.  The code violates this: `Load`
overwrites `e.allowedSet` (engine.go:177) and `e.toolRules` (engine.go:184)
before compiling any pattern, so after the failed reload of `badDoc` the
engine built from `goodDoc` denies its previously allowed `safe_tool` and
allows `badDoc`'s `evil_tool`, even though `Load` reported the
pattern-compile error. -/
theorem C1_failed_load_clobbers_state :
    (Engine.Load testLib (NewEngine testLib.Regex) (some goodDoc)).2 = none ∧
    (Engine.Load testLib (Engine.Load testLib (NewEngine testLib.Regex) (some goodDoc)).1
        (some badDoc)).2 = some (LoadError.invalidRegex "ruled_tool" "x") ∧
    (Engine.Load testLib (Engine.Load testLib (NewEngine testLib.Regex) (some goodDoc)).1
        (some badDoc)).1.allowedSet ≠
      (Engine.Load testLib (NewEngine testLib.Regex) (some goodDoc)).1.allowedSet ∧
    Engine.IsAllowed testLib
      (Engine.Load testLib (Engine.Load testLib (NewEngine testLib.Regex) (some goodDoc)).1
        (some badDoc)).1 "safe_tool" [] = ⟨false, "", ""⟩ ∧
    Engine.IsAllowed testLib
      (Engine.Load testLib (Engine.Load testLib (NewEngine testLib.Regex) (some goodDoc)).1
        (some badDoc)).1 "evil_tool" [] = ⟨true, "", ""⟩ := by
  decide

/-- C2: the claim states that an engine on which no `Load` ever returned
success denies every input.  The code violates this: a fresh engine whose
single `Load` of `badDoc` failed on the uncompilable pattern "(" nevertheless
allows `evil_tool`, because the failed `Load` had already installed the new
allow-list (engine.go:177-181) before the compilation error aborted it. -/
theorem C2_failed_first_load_not_fail_closed :
    (Engine.Load testLib (NewEngine testLib.Regex) (some badDoc)).2 =
      some (LoadError.invalidRegex "ruled_tool" "x") ∧
    Engine.IsAllowed testLib
      (Engine.Load testLib (NewEngine testLib.Regex) (some badDoc)).1
      "evil_tool" [] = ⟨true, "", ""⟩ := by
  decide

/-- C5: after a successful load, a tool whose normalized name is not in the
allowed set is denied with empty `FailedArg` and `FailedRule`, for every
argument map. -/
theorem C5_unlisted_tool_denied (lib : RegexLib) (e : Engine lib.Regex)
    (parsed : Option AgentPolicy) (e' : Engine lib.Regex) (aset : List String)
    (toolName : String) (args : List (String × GoValue))
    (hload : Engine.Load lib e parsed = (e', none))
    (haset : e'.allowedSet = some aset)
    (hmem : normalizeTool toolName ∉ aset) :
    Engine.IsAllowed lib e' toolName args = ⟨false, "", ""⟩ :=
  IsAllowed_eq_of_not_mem lib e' aset toolName args haset hmem

/-- Witness for C5 at a concrete input: the engine loaded from `ruleDoc`
denies the unlisted `dangerous_tool` with empty argument detail. -/
theorem C5_witness :
    Engine.IsAllowed testLib eRule "dangerous_tool" [("url", GoValue.str "ok")] =
      ⟨false, "", ""⟩ :=
  C5_unlisted_tool_denied testLib (NewEngine testLib.Regex) (some ruleDoc) eRule
    ["safe_tool", "fetch_url"] "dangerous_tool" [("url", GoValue.str "ok")]
    rfl rfl (by decide)

/-- C6: after a successful load, an allowed tool with no compiled rule, or
whose rule declares zero argument patterns, is allowed for every argument
map. -/
theorem C6_no_constraints_allows (lib : RegexLib) (e : Engine lib.Regex)
    (parsed : Option AgentPolicy) (e' : Engine lib.Regex) (aset : List String)
    (toolName : String) (args : List (String × GoValue))
    (hload : Engine.Load lib e parsed = (e', none))
    (haset : e'.allowedSet = some aset)
    (hmem : normalizeTool toolName ∈ aset)
    (hrule : lookupA e'.toolRules (normalizeTool toolName) = none ∨
      ∃ r, lookupA e'.toolRules (normalizeTool toolName) = some r ∧ r.allow_args = []) :
    Engine.IsAllowed lib e' toolName args = ⟨true, "", ""⟩ := by
  rw [IsAllowed_eq_of_mem lib e' aset toolName args haset hmem]
  rcases hrule with hnone | ⟨r, hsome, hempty⟩
  · rw [hnone]
  · rw [hsome]
    have hwc := Load_ok_wellCompiled lib e parsed e' hload _ _ hsome
    unfold WellCompiled at hwc
    rw [hempty] at hwc
    have hca : r.compiledArgs = [] := List.forall₂_nil_left_iff.mp hwc
    show (if r.compiledArgs.length = 0 then (⟨true, "", ""⟩ : ValidationResult)
      else checkArgs lib r r.compiledArgs args) = ⟨true, "", ""⟩
    rw [hca]
    rfl

/-- Witness for C6 at a concrete input: `safe_tool` (allowed, no rule) is
allowed despite an adversarial extra argument, even queried with spacing and
upper case. -/
theorem C6_witness :
    Engine.IsAllowed testLib eRule " SAFE_TOOL " [("junk", GoValue.boolean true)] =
      ⟨true, "", ""⟩ :=
  C6_no_constraints_allows testLib (NewEngine testLib.Regex) (some ruleDoc) eRule
    ["safe_tool", "fetch_url"] " SAFE_TOOL " [("junk", GoValue.boolean true)]
    rfl rfl (by decide) (Or.inl (by rfl))

/-- C7: `IsAllowed` treats a tool name and its trimmed, lower-cased form
identically — both the loader (engine.go:179, 187) and the decision side
(engine.go:255) normalize with the same `normalizeTool` — and in particular
the names "Fetch_URL" and " fetch_url " always receive the same verdict. -/
theorem C7_normalization_invariance (lib : RegexLib) (e : Engine lib.Regex)
    (toolName : String) (args : List (String × GoValue)) :
    Engine.IsAllowed lib e toolName args =
      Engine.IsAllowed lib e (normalizeTool toolName) args ∧
    Engine.IsAllowed lib e "Fetch_URL" args =
      Engine.IsAllowed lib e " fetch_url " args := by
  have key : ∀ t₁ t₂ : String, normalizeTool t₁ = normalizeTool t₂ →
      Engine.IsAllowed lib e t₁ args = Engine.IsAllowed lib e t₂ args := by
    intro t₁ t₂ h
    unfold Engine.IsAllowed
    rw [h]
  exact ⟨key _ _ (normalizeTool_idem toolName).symm, key _ _ (by decide)⟩

/-- C3: after a successful load every key of the compiled-rule mapping is in
the allowed set (implicit grant, engine.go:199-202), and for a tool with a
compiled rule `IsAllowed` never stops at the tool-level check — its verdict is
exactly the argument-validation outcome. -/
theorem C3_rule_implies_allowed (lib : RegexLib) (e : Engine lib.Regex)
    (parsed : Option AgentPolicy) (e' : Engine lib.Regex) (aset : List String)
    (hload : Engine.Load lib e parsed = (e', none))
    (haset : e'.allowedSet = some aset) :
    (∀ n r, lookupA e'.toolRules n = some r → n ∈ aset) ∧
    (∀ toolName r args, lookupA e'.toolRules (normalizeTool toolName) = some r →
      Engine.IsAllowed lib e' toolName args =
        if r.compiledArgs.length = 0 then ⟨true, "", ""⟩
        else checkArgs lib r r.compiledArgs args) := by
  have hmem := Load_ok_rule_mem lib e parsed e' aset hload haset
  refine ⟨hmem, ?_⟩
  intro toolName r args hr
  rw [IsAllowed_eq_of_mem lib e' aset toolName args haset (hmem _ _ hr), hr]

/-- Witness for C3 at a concrete input: `fetch_url` is declared only in
`ruleDoc`'s `tool_rules`, not in its `allowed_tools`, yet its normalized name
is in the loaded engine's allowed set. -/
theorem C3_witness :
    normalizeTool " Fetch_URL " ∈ (["safe_tool", "fetch_url"] : List String) :=
  (C3_rule_implies_allowed testLib (NewEngine testLib.Regex) (some ruleDoc) eRule
    ["safe_tool", "fetch_url"] rfl rfl).1 (normalizeTool " Fetch_URL ")
    ⟨"fetch_url", [("url", "ok")], [("url", "ok")]⟩ (by rfl)

/-- C10: after a successful load, for a tool with a compiled rule, two
argument maps that agree on every argument name constrained by that rule
receive the same verdict — unconstrained entries have no influence. -/
theorem C10_unconstrained_args_no_influence (lib : RegexLib) (e : Engine lib.Regex)
    (parsed : Option AgentPolicy) (e' : Engine lib.Regex)
    (toolName : String) (r : CompiledRule lib.Regex)
    (args1 args2 : List (String × GoValue))
    (hload : Engine.Load lib e parsed = (e', none))
    (hr : lookupA e'.toolRules (normalizeTool toolName) = some r)
    (hagree : ∀ a ∈ r.allow_args.map Prod.fst, lookupA args1 a = lookupA args2 a) :
    Engine.IsAllowed lib e' toolName args1 = Engine.IsAllowed lib e' toolName args2 := by
  obtain ⟨p, tr, aset, -, -, -, -, he'⟩ := Load_ok_elim lib e parsed e' hload
  have haset : e'.allowedSet = some aset := by rw [he']
  have hmem := Load_ok_rule_mem lib e parsed e' aset hload haset _ _ hr
  rw [IsAllowed_eq_of_mem lib e' aset toolName args1 haset hmem,
      IsAllowed_eq_of_mem lib e' aset toolName args2 haset hmem, hr]
  show (if r.compiledArgs.length = 0 then (⟨true, "", ""⟩ : ValidationResult)
      else checkArgs lib r r.compiledArgs args1) =
    (if r.compiledArgs.length = 0 then (⟨true, "", ""⟩ : ValidationResult)
      else checkArgs lib r r.compiledArgs args2)
  by_cases hlen : r.compiledArgs.length = 0
  · rw [if_pos hlen, if_pos hlen]
  · rw [if_neg hlen, if_neg hlen]
    have hwc := Load_ok_wellCompiled lib e parsed e' hload _ _ hr
    unfold WellCompiled at hwc
    apply checkArgs_congr
    intro a ha
    apply hagree
    rw [← forall₂_keys hwc]
    exact ha

/-- Witness for C10 at a concrete input: an extra, unconstrained `extra`
argument does not change `fetch_url`'s verdict. -/
theorem C10_witness :
    Engine.IsAllowed testLib eRule "fetch_url"
        [("url", GoValue.str "ok"), ("extra", GoValue.int 3)] =
      Engine.IsAllowed testLib eRule "fetch_url" [("url", GoValue.str "ok")] :=
  C10_unconstrained_args_no_influence testLib (NewEngine testLib.Regex) (some ruleDoc) eRule
    "fetch_url" ⟨"fetch_url", [("url", "ok")], [("url", "ok")]⟩
    [("url", GoValue.str "ok"), ("extra", GoValue.int 3)] [("url", GoValue.str "ok")]
    rfl (by rfl) (by decide)

/-- C4: after a successful load, for an allowed tool whose compiled rule
constrains at least one argument, `IsAllowed` allows exactly when every
constrained argument is present and its canonical text form matches its
compiled pattern; a missing constrained argument forces a denial; and every
denial reports a genuinely failing argument together with that argument's
declared (uncompiled) pattern string. -/
theorem C4_argument_validation (lib : RegexLib) (e : Engine lib.Regex)
    (parsed : Option AgentPolicy) (e' : Engine lib.Regex)
    (toolName : String) (r : CompiledRule lib.Regex) (args : List (String × GoValue))
    (hload : Engine.Load lib e parsed = (e', none))
    (hnd : ∀ p, parsed = some p → ∀ rule ∈ p.spec.tool_rules,
      (rule.allow_args.map Prod.fst).Nodup)
    (hr : lookupA e'.toolRules (normalizeTool toolName) = some r)
    (hne : r.allow_args ≠ []) :
    ((Engine.IsAllowed lib e' toolName args).Allowed = true ↔
      ∀ ap ∈ r.allow_args, ∃ re v, lib.compile ap.2 = some re ∧
        lookupA args ap.1 = some v ∧ lib.matchString re (argToString v) = true) ∧
    ((∃ ap ∈ r.allow_args, lookupA args ap.1 = none) →
      (Engine.IsAllowed lib e' toolName args).Allowed = false) ∧
    ((Engine.IsAllowed lib e' toolName args).Allowed = false →
      ∃ a pat re, (a, pat) ∈ r.allow_args ∧ lib.compile pat = some re ∧
        (Engine.IsAllowed lib e' toolName args).FailedArg = a ∧
        (Engine.IsAllowed lib e' toolName args).FailedRule = pat ∧
        (lookupA args a = none ∨
          ∃ v, lookupA args a = some v ∧ lib.matchString re (argToString v) = false)) := by
  obtain ⟨p, tr, aset, -, -, -, -, he'⟩ := Load_ok_elim lib e parsed e' hload
  have haset : e'.allowedSet = some aset := by rw [he']
  have hmem := Load_ok_rule_mem lib e parsed e' aset hload haset _ _ hr
  have hwc := Load_ok_wellCompiled lib e parsed e' hload _ _ hr
  unfold WellCompiled at hwc
  have hndr := Load_ok_nodup lib e parsed e' hload hnd _ _ hr
  have hkeys := forall₂_keys hwc
  have hca : r.compiledArgs ≠ [] := by
    intro h0
    apply hne
    rw [h0] at hkeys
    cases hargs : r.allow_args with
    | nil => rfl
    | cons q t => rw [hargs] at hkeys; simp at hkeys
  have hIs : Engine.IsAllowed lib e' toolName args = checkArgs lib r r.compiledArgs args := by
    rw [IsAllowed_eq_of_mem lib e' aset toolName args haset hmem, hr]
    show (if r.compiledArgs.length = 0 then (⟨true, "", ""⟩ : ValidationResult)
      else checkArgs lib r r.compiledArgs args) = _
    rw [if_neg (by simpa using hca)]
  rcases checkArgs_cases lib r args r.compiledArgs with
    ⟨hres, hall⟩ | ⟨a, re, hmemca, hres, hfail⟩
  · refine ⟨?_, ?_, ?_⟩
    · rw [hIs, hres]
      constructor
      · intro _ ap hap
        obtain ⟨ar, har, h1, h2⟩ := forall₂_exists_right hwc ap hap
        obtain ⟨v, hv, hm⟩ := hall ar har
        rw [h1] at hv
        exact ⟨ar.2, v, h2, hv, hm⟩
      · intro _
        rfl
    · rintro ⟨ap, hap, habsent⟩
      obtain ⟨ar, har, h1, -⟩ := forall₂_exists_right hwc ap hap
      obtain ⟨v, hv, -⟩ := hall ar har
      rw [h1, habsent] at hv
      exact Option.noConfusion hv
    · intro hfalse
      rw [hIs, hres] at hfalse
      simp at hfalse
  · obtain ⟨pat, hlp, hcomp⟩ := wc_lookup hwc hndr a re hmemca
    have hmem_ap : (a, pat) ∈ r.allow_args := lookupA_mem _ _ _ hlp
    refine ⟨?_, ?_, ?_⟩
    · rw [hIs, hres]
      constructor
      · intro hcontra
        simp at hcontra
      · intro hallr
        obtain ⟨re', v, hre', hv, hm⟩ := hallr (a, pat) hmem_ap
        rw [hcomp] at hre'
        obtain rfl := Option.some.inj hre'
        rcases hfail with habsent | ⟨v', hv', hm'⟩
        · rw [habsent] at hv
          exact Option.noConfusion hv
        · rw [hv'] at hv
          obtain rfl := Option.some.inj hv
          rw [hm] at hm'
          exact Bool.noConfusion hm'
    · intro _
      rw [hIs, hres]
    · intro _
      refine ⟨a, pat, re, hmem_ap, hcomp, ?_, ?_, hfail⟩
      · rw [hIs, hres]
      · rw [hIs, hres]
        show (lookupA r.allow_args a).getD "" = pat
        rw [hlp]
        rfl

/-- Witness for C4 at a concrete input: the constrained `url` argument of
`fetch_url`, supplied with its matching value, yields the allow verdict via
the iff direction of the claim. -/
theorem C4_witness :
    (Engine.IsAllowed testLib eRule "fetch_url" [("url", GoValue.str "ok")]).Allowed = true := by
  have h := C4_argument_validation testLib (NewEngine testLib.Regex) (some ruleDoc) eRule
    "fetch_url" ⟨"fetch_url", [("url", "ok")], [("url", "ok")]⟩ [("url", GoValue.str "ok")]
    rfl
    (by
      intro p hp
      injection hp with hp
      subst hp
      intro rule hrule
      simp [ruleDoc] at hrule
      subst hrule
      decide)
    (by rfl)
    (by simp)
  apply h.1.mpr
  intro ap hap
  have hap' : ap = ("url", "ok") := by simpa using hap
  subst hap'
  exact ⟨"ok", GoValue.str "ok", rfl, rfl, rfl⟩

/-- C8: `Load` fails exactly when the document fails to parse, the
schema-version field is empty, the kind differs from "AgentPolicy", or some
declared argument pattern does not compile; moreover a kind error carries the
incorrect kind, an apiVersion error occurs only on an empty apiVersion, and a
pattern error names a rule of the document and one of its genuinely
uncompilable arguments. -/
theorem C8_load_error_conditions (lib : RegexLib) (e : Engine lib.Regex)
    (parsed : Option AgentPolicy) :
    ((Engine.Load lib e parsed).2 ≠ none ↔
      parsed = none ∨ ∃ p, parsed = some p ∧
        (p.apiVersion = "" ∨ p.kind ≠ "AgentPolicy" ∨
          ∃ rule ∈ p.spec.tool_rules, ∃ ap ∈ rule.allow_args, lib.compile ap.2 = none)) ∧
    (∀ t a, (Engine.Load lib e parsed).2 = some (.invalidRegex t a) →
      ∃ p, parsed = some p ∧ ∃ rule ∈ p.spec.tool_rules, rule.tool = t ∧
        ∃ pat, (a, pat) ∈ rule.allow_args ∧ lib.compile pat = none) ∧
    (∀ k, (Engine.Load lib e parsed).2 = some (.unexpectedKind k) →
      ∃ p, parsed = some p ∧ p.kind = k ∧ k ≠ "AgentPolicy") ∧
    ((Engine.Load lib e parsed).2 = some .missingAPIVersion →
      ∃ p, parsed = some p ∧ p.apiVersion = "") := by
  cases parsed with
  | none =>
    refine ⟨?_, ?_, ?_, ?_⟩
    · simp [Engine.Load]
    · intro t a h
      simp [Engine.Load] at h
    · intro k h
      simp [Engine.Load] at h
    · intro h
      simp [Engine.Load] at h
  | some p =>
    by_cases h1 : p.apiVersion = ""
    · refine ⟨?_, ?_, ?_, ?_⟩
      · simp only [Engine.Load, if_pos h1]
        constructor
        · intro _
          exact Or.inr ⟨p, rfl, Or.inl h1⟩
        · intro _
          simp
      · intro t a h
        simp only [Engine.Load, if_pos h1] at h
        simp at h
      · intro k h
        simp only [Engine.Load, if_pos h1] at h
        simp at h
      · intro _
        exact ⟨p, rfl, h1⟩
    · by_cases h2 : p.kind = "AgentPolicy"
      · have hnotne : ¬ p.kind ≠ "AgentPolicy" := fun hn => hn h2
        rcases hlr : loadRulesAux lib p.spec.tool_rules []
            (buildAllowedSet p.spec.allowed_tools) with ⟨tr, aset, err⟩
        have hload2 : (Engine.Load lib e (some p)).2 = err := by
          simp only [Engine.Load, if_neg h1, if_neg hnotne]
          unfold loadCompiled
          rw [hlr]
          cases err <;> rfl
        refine ⟨?_, ?_, ?_, ?_⟩
        · rw [hload2]
          cases err with
          | none =>
            have hall := (loadRulesAux_none_iff lib p.spec.tool_rules [] _).mp (by rw [hlr])
            constructor
            · intro h
              simp at h
            · rintro (h | ⟨p', hp', hbad⟩)
              · exact Option.noConfusion h
              · obtain rfl : p = p' := Option.some.inj hp'
                rcases hbad with hb | hb | ⟨rule, hrule, ap, hap, hnone⟩
                · exact absurd hb h1
                · exact absurd hb hnotne
                · obtain ⟨re, hre⟩ := hall rule hrule ap hap
                  rw [hre] at hnone
                  exact Option.noConfusion hnone
          | some e0 =>
            constructor
            · intro _
              obtain ⟨rule, hrule, a, pat, hap, hnone, -⟩ :=
                loadRulesAux_error_spec lib _ _ _ _ _ _ hlr
              exact Or.inr ⟨p, rfl, Or.inr (Or.inr ⟨rule, hrule, (a, pat), hap, hnone⟩)⟩
            · intro _
              simp
        · intro t a h
          rw [hload2] at h
          cases err with
          | none => exact Option.noConfusion h
          | some e0 =>
            obtain rfl := Option.some.inj h
            obtain ⟨rule, hrule, a', pat, hap, hnone, hval⟩ :=
              loadRulesAux_error_spec lib _ _ _ _ _ _ hlr
            injection hval with hv1 hv2
            subst hv1
            subst hv2
            exact ⟨p, rfl, rule, hrule, rfl, pat, hap, hnone⟩
        · intro k h
          rw [hload2] at h
          cases err with
          | none => exact Option.noConfusion h
          | some e0 =>
            obtain rfl := Option.some.inj h
            obtain ⟨rule, hrule, a', pat, hap, hnone, hval⟩ :=
              loadRulesAux_error_spec lib _ _ _ _ _ _ hlr
            exact LoadError.noConfusion hval
        · intro h
          rw [hload2] at h
          cases err with
          | none => exact Option.noConfusion h
          | some e0 =>
            obtain rfl := Option.some.inj h
            obtain ⟨rule, hrule, a', pat, hap, hnone, hval⟩ :=
              loadRulesAux_error_spec lib _ _ _ _ _ _ hlr
            exact LoadError.noConfusion hval
      · have hcond : p.kind ≠ "AgentPolicy" := h2
        refine ⟨?_, ?_, ?_, ?_⟩
        · simp only [Engine.Load, if_neg h1, if_pos hcond]
          constructor
          · intro _
            exact Or.inr ⟨p, rfl, Or.inr (Or.inl hcond)⟩
          · intro _
            simp
        · intro t a h
          simp only [Engine.Load, if_neg h1, if_pos hcond] at h
          simp at h
        · intro k h
          simp only [Engine.Load, if_neg h1, if_pos hcond] at h
          simp only [Option.some.injEq, LoadError.unexpectedKind.injEq] at h
          exact ⟨p, rfl, h, h ▸ hcond⟩
        · intro h
          simp only [Engine.Load, if_neg h1, if_pos hcond] at h
          simp at h

/-- Witness for C8 at a concrete input: loading `badDoc`, whose pattern "("
does not compile, returns an error. -/
theorem C8_witness : (Engine.Load testLib (NewEngine testLib.Regex) (some badDoc)).2 ≠ none :=
  (C8_load_error_conditions testLib (NewEngine testLib.Regex) (some badDoc)).1.mpr
    (Or.inr ⟨badDoc, rfl, Or.inr (Or.inr
      ⟨{ tool := "ruled_tool", allow_args := [("x", "(")] }, by simp [badDoc],
        ("x", "("), by simp, rfl⟩)⟩)
